import Mathlib

/-!
Verification of the defect tracking and lifecycle engine of RoboNav_UI.

The embedding below follows the TypeScript sources:
* `calculateIoU` — `src/components/SewerDetection.tsx` (identical copy in
  `src/context/DataProvider.tsx`); JavaScript numbers are modelled as `ℚ`,
  with `Option ℚ` as result type so that the JavaScript `NaN` produced by
  the division `0/0` (union area zero) is represented by `none`.
* `updateTrackedDefects` — greedy IoU matching, anti-duplication and track
  creation (`SewerDetection.tsx`, with the face-tracking variant calling
  `addDefect` on each created track).
* `checkDefectTimeout` — time-based eviction.
* `addDefect` / `determineSeverity` — cooldown-gated, dedup-aware promotion
  of created tracks into `Defect` records (sewer variant of the data
  provider).
-/

/-- An axis-aligned bounding box `[x1, y1, x2, y2]`.  The confidence score
that the TypeScript code stores as a fifth array element is kept in a
separate field of `Detection` / `Track`; `calculateIoU` destructures only
the first four entries. -/
structure Box where
  x1 : ℚ
  y1 : ℚ
  x2 : ℚ
  y2 : ℚ
deriving Repr, DecidableEq

/-- JavaScript strict comparison `o > t` where `o` may be `NaN` (modelled
`none`): any comparison against `NaN` is `false`. -/
def jsGt (o : Option ℚ) (t : ℚ) : Bool :=
  match o with
  | none => false
  | some q => decide (t < q)

/-- `calculateIoU` from `SewerDetection.tsx` (lines 97–122).  Returns
`some 0` on the early no-intersection exit, `none` when the union area is
zero (the JavaScript code then computes `0/0 = NaN`), and otherwise
`some (intersection / union)`. -/
def calculateIoU (boxA boxB : Box) : Option ℚ :=
  let xLeft := max boxA.x1 boxB.x1
  let yTop := max boxA.y1 boxB.y1
  let xRight := min boxA.x2 boxB.x2
  let yBottom := min boxA.y2 boxB.y2
  if xRight < xLeft ∨ yBottom < yTop then
    some 0
  else
    let intersectionArea := (xRight - xLeft) * (yBottom - yTop)
    let boxAArea := (boxA.x2 - boxA.x1) * (boxA.y2 - boxA.y1)
    let boxBArea := (boxB.x2 - boxB.x1) * (boxB.y2 - boxB.y1)
    let unionArea := boxAArea + boxBArea - intersectionArea
    if unionArea = 0 then none
    else some (intersectionArea / unionArea)

/-- Area of a box, `(x2 - x1) * (y2 - y1)`. -/
def Box.area (b : Box) : ℚ := (b.x2 - b.x1) * (b.y2 - b.y1)

/-- A well-formed box: coordinates are ordered. -/
def Box.Valid (b : Box) : Prop := b.x1 ≤ b.x2 ∧ b.y1 ≤ b.y2

/-- A valid box with strictly positive area. -/
def Box.PosArea (b : Box) : Prop := b.x1 < b.x2 ∧ b.y1 < b.y2

/-- Two boxes are separated (do not overlap) when they are strictly apart
along one of the axes. -/
def Box.Separated (a b : Box) : Prop :=
  a.x2 < b.x1 ∨ b.x2 < a.x1 ∨ a.y2 < b.y1 ∨ b.y2 < a.y1

lemma calculateIoU_comm (a b : Box) : calculateIoU a b = calculateIoU b a := by
  unfold calculateIoU
  rw [max_comm a.x1 b.x1, max_comm a.y1 b.y1, min_comm a.x2 b.x2,
    min_comm a.y2 b.y2]
  ring_nf

lemma calculateIoU_self (a : Box) (ha : a.PosArea) : calculateIoU a a = some 1 := by
  obtain ⟨hx, hy⟩ := ha
  unfold calculateIoU
  simp only [max_self, min_self]
  rw [if_neg, if_neg]
  · congr 1
    have harea : (a.x2 - a.x1) * (a.y2 - a.y1) ≠ 0 := by
      apply ne_of_gt
      apply mul_pos <;> linarith
    field_simp
  · intro h
    nlinarith [mul_pos (sub_pos.mpr hx) (sub_pos.mpr hy)]
  · push_neg
    constructor <;> linarith

lemma calculateIoU_separated (a b : Box) (h : a.Separated b) :
    calculateIoU a b = some 0 := by
  unfold calculateIoU
  rw [if_pos]
  rcases h with h | h | h | h
  · left; calc min a.x2 b.x2 ≤ a.x2 := min_le_left _ _
      _ < b.x1 := h
      _ ≤ max a.x1 b.x1 := le_max_right _ _
  · left; calc min a.x2 b.x2 ≤ b.x2 := min_le_right _ _
      _ < a.x1 := h
      _ ≤ max a.x1 b.x1 := le_max_left _ _
  · right; calc min a.y2 b.y2 ≤ a.y2 := min_le_left _ _
      _ < b.y1 := h
      _ ≤ max a.y1 b.y1 := le_max_right _ _
  · right; calc min a.y2 b.y2 ≤ b.y2 := min_le_right _ _
      _ < a.y1 := h
      _ ≤ max a.y1 b.y1 := le_max_left _ _

lemma calculateIoU_mem_unitInterval (a b : Box) (ha : a.PosArea) (hb : b.PosArea) :
    ∃ q, calculateIoU a b = some q ∧ 0 ≤ q ∧ q ≤ 1 := by
  obtain ⟨hax, hay⟩ := ha
  obtain ⟨hbx, hby⟩ := hb
  unfold calculateIoU
  by_cases hsep : min a.x2 b.x2 < max a.x1 b.x1 ∨ min a.y2 b.y2 < max a.y1 b.y1
  · exact ⟨0, by rw [if_pos hsep], le_refl 0, zero_le_one⟩
  · push_neg at hsep
    obtain ⟨hsx, hsy⟩ := hsep
    set xL := max a.x1 b.x1 with hxL
    set yT := max a.y1 b.y1 with hyT
    set xR := min a.x2 b.x2 with hxR
    set yB := min a.y2 b.y2 with hyB
    have hIx : xR - xL ≥ 0 := by linarith
    have hIy : yB - yT ≥ 0 := by linarith
    have hIxA : xR - xL ≤ a.x2 - a.x1 := by
      have h1 : xR ≤ a.x2 := min_le_left _ _
      have h2 : a.x1 ≤ xL := le_max_left _ _
      linarith
    have hIyA : yB - yT ≤ a.y2 - a.y1 := by
      have h1 : yB ≤ a.y2 := min_le_left _ _
      have h2 : a.y1 ≤ yT := le_max_left _ _
      linarith
    have hIxB : xR - xL ≤ b.x2 - b.x1 := by
      have h1 : xR ≤ b.x2 := min_le_right _ _
      have h2 : b.x1 ≤ xL := le_max_right _ _
      linarith
    have hIyB : yB - yT ≤ b.y2 - b.y1 := by
      have h1 : yB ≤ b.y2 := min_le_right _ _
      have h2 : b.y1 ≤ yT := le_max_right _ _
      linarith
    have hInter : 0 ≤ (xR - xL) * (yB - yT) := mul_nonneg hIx hIy
    have hAreaA : 0 < (a.x2 - a.x1) * (a.y2 - a.y1) := by
      apply mul_pos <;> linarith
    have hAreaB : 0 < (b.x2 - b.x1) * (b.y2 - b.y1) := by
      apply mul_pos <;> linarith
    have hInterA : (xR - xL) * (yB - yT) ≤ (a.x2 - a.x1) * (a.y2 - a.y1) :=
      mul_le_mul hIxA hIyA hIy (by linarith)
    have hInterB : (xR - xL) * (yB - yT) ≤ (b.x2 - b.x1) * (b.y2 - b.y1) :=
      mul_le_mul hIxB hIyB hIy (by linarith)
    have hUnion : 0 < (a.x2 - a.x1) * (a.y2 - a.y1) + (b.x2 - b.x1) * (b.y2 - b.y1)
        - (xR - xL) * (yB - yT) := by linarith
    rw [if_neg (by push_neg; exact ⟨hsx, hsy⟩), if_neg (by positivity ; )]
    refine ⟨_, rfl, div_nonneg hInter (le_of_lt hUnion), ?_⟩
    rw [div_le_one hUnion]
    linarith

lemma jsGt_none (t : ℚ) : jsGt none t = false := rfl

/-- A valid zero-area box against itself: the early exit is not taken, the
union area is `0`, and the JavaScript code computes `0/0 = NaN`. -/
lemma calculateIoU_self_zero_area (a : Box) (hv : a.Valid) (h0 : a.area = 0) :
    calculateIoU a a = none := by
  obtain ⟨hx, hy⟩ := hv
  have h0' : (a.x2 - a.x1) * (a.y2 - a.y1) = 0 := h0
  unfold calculateIoU
  simp only [max_self, min_self]
  have hc1 : ¬(a.x2 < a.x1 ∨ a.y2 < a.y1) := by push_neg; exact ⟨hx, hy⟩
  rw [if_neg hc1, if_pos (by linarith)]

/-- A `Detection`: one raw box from the model with its confidence score and
class index (the TypeScript code carries these as elements 4 and 5 of the
detection array). -/
structure Detection where
  box : Box
  score : ℚ
  classId : ℕ
deriving Repr, DecidableEq

/-- A `TrackedDefect`: the tracker's per-track record.  The source stores
the confidence inside the 5-element box array; it is split into the `conf`
field here. -/
structure Track where
  id : ℕ
  box : Box
  conf : ℚ
  classId : ℕ
  lastSeen : ℤ
deriving Repr, DecidableEq

/-- Inner loop of the greedy matcher (`updateTrackedDefects`, phase 1): scan
the indexed track list, skipping already-matched indices, keeping the index
of the strictly best IoU seen so far.  `acc.2` is `bestIoU`, initialised to
`IOU_THRESHOLD = 1/10`; a `NaN` IoU never beats it, mirroring the failing
JavaScript comparison `iou > bestIoU`. -/
def bestMatchAux (det : Box) (matchedE : List ℕ) :
    List (ℕ × Track) → Option ℕ × ℚ → Option ℕ × ℚ
  | [], acc => acc
  | (i, t) :: ts, acc =>
    if i ∈ matchedE then bestMatchAux det matchedE ts acc
    else
      match calculateIoU det t.box with
      | none => bestMatchAux det matchedE ts acc
      | some q =>
          if acc.2 < q then bestMatchAux det matchedE ts (some i, q)
          else bestMatchAux det matchedE ts acc

/-- Greedy candidate selection for one detection: highest IoU over the
not-yet-matched tracks, threshold `IOU_THRESHOLD = 1/10`. -/
def bestMatch (det : Box) (tracks : List Track) (matchedE : List ℕ) :
    Option ℕ × ℚ :=
  bestMatchAux det matchedE tracks.enum (none, 1/10)

/-- Accepting a match overwrites the stored box, confidence and class of the
matched track and refreshes `lastSeen`; the track id is preserved. -/
def applyMatch (tracks : List Track) (j : ℕ) (d : Detection) (now : ℤ) :
    List Track :=
  match tracks.get? j with
  | none => tracks
  | some t =>
      tracks.set j
        { t with box := d.box, conf := d.score, classId := d.classId, lastSeen := now }

/-- State threaded through phase 1 of `updateTrackedDefects`: the working
track list (`updatedDefs`), the set of matched track indices
(`matchedExistingDetections`) and the accepted (detection index, track
index) pairs; the pairs' first components are `matchedNewDetections`. -/
structure MatchState where
  tracks : List Track
  matchedE : List ℕ
  pairs : List (ℕ × ℕ)
deriving Repr, DecidableEq

/-- Phase 1 of `updateTrackedDefects`: greedy 1:1 matching over the
detections in input order.  (The source's check of `matchedNewDetections`
at the top of this loop is vacuous — an index is inserted only at its own
iteration — and is omitted.) -/
def processDets (now : ℤ) : List (ℕ × Detection) → MatchState → MatchState
  | [], s => s
  | (k, d) :: ds, s =>
      match (bestMatch d.box s.tracks s.matchedE).1 with
      | some j =>
          processDets now ds
            ⟨applyMatch s.tracks j d now, s.matchedE ++ [j], s.pairs ++ [(k, j)]⟩
      | none => processDets now ds s

/-- Anti-duplication scan of phase 2: the detection is `tooClose` when some
current track (matched or not, including tracks created earlier in the same
cycle) has IoU strictly above `IOU_THRESHOLD / 2 = 1/20`. -/
def tooClose (d : Box) (tracks : List Track) : Bool :=
  tracks.any (fun t => jsGt (calculateIoU d t.box) (1 / 20))

/-- State threaded through phase 2: the working track list, the id counter
and the created tracks tagged with their detection index. -/
structure CreateState where
  tracks : List Track
  nextId : ℕ
  created : List (ℕ × Track)
deriving Repr, DecidableEq

/-- Phase 2 of `updateTrackedDefects`: each unmatched detection either is
discarded as a near-duplicate or creates a fresh track with the next id. -/
def createTracks (now : ℤ) (matchedNew : List ℕ) :
    List (ℕ × Detection) → CreateState → CreateState
  | [], s => s
  | (k, d) :: ds, s =>
      if k ∈ matchedNew then createTracks now matchedNew ds s
      else if tooClose d.box s.tracks then createTracks now matchedNew ds s
      else
        let nt : Track := ⟨s.nextId, d.box, d.score, d.classId, now⟩
        createTracks now matchedNew ds
          ⟨s.tracks ++ [nt], s.nextId + 1, s.created ++ [(k, nt)]⟩

/-- Result of one `updateTrackedDefects` cycle. -/
structure TrackerResult where
  tracks : List Track
  nextId : ℕ
  pairs : List (ℕ × ℕ)
  created : List (ℕ × Track)
deriving Repr, DecidableEq

/-- One tracker update cycle (`updateTrackedDefects` in
`SewerDetection.tsx`, lines 345–421): greedy matching followed by
anti-duplication / creation. -/
def updateTrackedDefects (dets : List Detection) (now : ℤ)
    (tracks : List Track) (nextId : ℕ) : TrackerResult :=
  let m := processDets now dets.enum ⟨tracks, [], []⟩
  let c := createTracks now (m.pairs.map Prod.fst) dets.enum ⟨m.tracks, nextId, []⟩
  ⟨c.tracks, c.nextId, m.pairs, c.created⟩

/-- Eviction (`checkDefectTimeout`, `SewerDetection.tsx` lines 423–435):
drop every track not seen within `DEFECT_PERSISTENCE_TIMEOUT = 2000` ms.
The source's guards (non-empty list, strictly smaller result) are kept. -/
def checkDefectTimeout (now : ℤ) (tracks : List Track) : List Track :=
  if 0 < tracks.length then
    let updated := tracks.filter (fun t => decide (now - t.lastSeen ≤ 2000))
    if updated.length < tracks.length then updated else tracks
  else tracks

lemma checkDefectTimeout_eq_filter (now : ℤ) (tracks : List Track) :
    checkDefectTimeout now tracks
      = tracks.filter (fun t => decide (now - t.lastSeen ≤ 2000)) := by
  unfold checkDefectTimeout
  by_cases h : 0 < tracks.length
  · rw [if_pos h]
    by_cases h2 :
        (tracks.filter (fun t => decide (now - t.lastSeen ≤ 2000))).length
          < tracks.length
    · rw [if_pos h2]
    · rw [if_neg h2]
      push_neg at h2
      exact ((List.filter_sublist tracks).eq_of_length_le h2).symm
  · rw [if_neg h]
    have : tracks = [] := by
      cases tracks with
      | nil => rfl
      | cons a l => simp at h
    simp [this]

/-- Position record of a `Defect`. -/
structure Position where
  x : ℚ
  y : ℚ
  z : ℚ
deriving Repr, DecidableEq

/-- A promoted `Defect` record (data provider, sewer variant). -/
structure Defect where
  id : String
  timestamp : ℤ
  position : Position
  severity : String
  dtype : String
  confidence : ℚ
deriving Repr, DecidableEq

/-- `determineSeverity` from the data provider: a pure function of the
detection confidence. -/
def determineSeverity (confidence : ℚ) : String :=
  if 9 / 10 < confidence then "critical"
  else if 8 / 10 < confidence then "high"
  else if 7 / 10 < confidence then "medium"
  else "low"

/-- The time disambiguator of a defect id: the JavaScript expression
`now.toString().slice(-4)` (last four characters of the decimal string). -/
def lastFour (now : ℤ) : String :=
  let s := toString now
  s.drop (s.length - 4)

/-- Defect id allocation: `DEF-${trackId}-${now.toString().slice(-4)}`. -/
def mkDefectId (trackId : ℕ) (now : ℤ) : String :=
  "DEF-" ++ toString trackId ++ "-" ++ lastFour now

/-- The `Defect` built by `addDefect` on promotion: box-center mapped to a
normalized position (divide by the 640 px frame side), severity from the
confidence, confidence as a percentage. -/
def mkDefect (f : Track) (now : ℤ) : Defect :=
  { id := mkDefectId f.id now
    timestamp := now
    position :=
      { x := (f.box.x1 + f.box.x2) / 2 / 640
        y := (f.box.y1 + f.box.y2) / 2 / 640
        z := 0 }
    severity := determineSeverity f.conf
    dtype := "Sewer Defect"
    confidence := f.conf * 100 }

/-- Promoter state: the never-pruned memory of already-promoted boxes
(`processedBoxesRef`), the global last promotion time (`lastAddTimeRef`,
initially `0`), and the append-only defect store (`defects`). -/
structure PromoterState where
  processedBoxes : List Box
  lastAddTime : ℤ
  defects : List Defect
deriving Repr, DecidableEq

/-- Initial promoter state of a session. -/
def initPromoter : PromoterState := ⟨[], 0, []⟩

/-- The duplicate check of `addDefect`: some already-promoted box has IoU
strictly above `IOU_THRESHOLD = 1/2` with the candidate box. -/
def isDuplicate (b : Box) (processed : List Box) : Bool :=
  processed.any (fun e => jsGt (calculateIoU b e) (1 / 2))

/-- `addDefect` from the data provider (sewer variant, lines 339–383 of the
source): global `COOLDOWN_MS = 2000` gate first, then the duplicate check
against the processed-box memory; on promotion the box is remembered, the
global promotion time is set to `now` and the defect is appended. -/
def addDefect (f : Track) (now : ℤ) (s : PromoterState) : PromoterState :=
  if now - s.lastAddTime < 2000 then s
  else if isDuplicate f.box s.processedBoxes then s
  else
    { processedBoxes := s.processedBoxes ++ [f.box]
      lastAddTime := now
      defects := s.defects ++ [mkDefect f now] }

/-- A sequence of `addDefect` calls, each with its own timestamp. -/
def runPromotions (calls : List (Track × ℤ)) (s : PromoterState) : PromoterState :=
  calls.foldl (fun p c => addDefect c.1 c.2 p) s

/-- Combined state of the face/defect detection pipeline: the tracker's
track list and id counter plus the promoter state of the data provider. -/
structure SysState where
  tracks : List Track
  nextId : ℕ
  promoter : PromoterState
deriving Repr, DecidableEq

/-- Session start: no tracks, id counter `1`, fresh promoter. -/
def initSys : SysState := ⟨[], 1, initPromoter⟩

/-- One detection cycle of the pipeline (the face-tracking variant's
`updateTrackedFaces`, which calls `addDefect` on every track it creates, in
creation order; `addDefect` reads no tracker state and creation reads no
promoter state, so promoting after the cycle is equivalent to the source's
interleaved calls). -/
def runCycle (dets : List Detection) (now : ℤ) (s : SysState) : SysState :=
  let r := updateTrackedDefects dets now s.tracks s.nextId
  { tracks := r.tracks
    nextId := r.nextId
    promoter := r.created.foldl (fun p kt => addDefect kt.2 now p) s.promoter }

/-- The periodic eviction sweep applied to the pipeline state. -/
def evictCycle (now : ℤ) (s : SysState) : SysState :=
  { s with tracks := checkDefectTimeout now s.tracks }

/-- Full characterisation of the inner greedy scan: the result dominates
every eligible IoU value, never decreases the running best, and is either
the unchanged accumulator or the first list entry attaining the final best
value (every eligible entry before it is strictly below). -/
lemma bestMatchAux_char (det : Box) (mE : List ℕ) (l : List (ℕ × Track)) :
    ∀ acc : Option ℕ × ℚ,
      (∀ p ∈ l, p.1 ∉ mE → ∀ q, calculateIoU det p.2.box = some q →
          q ≤ (bestMatchAux det mE l acc).2)
      ∧ acc.2 ≤ (bestMatchAux det mE l acc).2
      ∧ (bestMatchAux det mE l acc = acc ∨
          ∃ l₁ p l₂, l = l₁ ++ p :: l₂ ∧ p.1 ∉ mE
            ∧ calculateIoU det p.2.box = some (bestMatchAux det mE l acc).2
            ∧ (bestMatchAux det mE l acc).1 = some p.1
            ∧ acc.2 < (bestMatchAux det mE l acc).2
            ∧ ∀ p' ∈ l₁, p'.1 ∉ mE → ∀ q', calculateIoU det p'.2.box = some q' →
                q' < (bestMatchAux det mE l acc).2) := by
  induction l with
  | nil =>
    intro acc
    exact ⟨by simp, le_refl _, Or.inl rfl⟩
  | cons hd tl ih =>
    intro acc
    obtain ⟨i, t⟩ := hd
    by_cases hmem : i ∈ mE
    · have hstep : bestMatchAux det mE ((i, t) :: tl) acc = bestMatchAux det mE tl acc := by
        simp [bestMatchAux, hmem]
      obtain ⟨IH1, IH2, IH3⟩ := ih acc
      rw [hstep]
      refine ⟨?_, IH2, ?_⟩
      · intro p hp hpm q hq
        rcases List.mem_cons.mp hp with rfl | hp'
        · exact absurd hmem hpm
        · exact IH1 p hp' hpm q hq
      · rcases IH3 with h | ⟨l₁, p, l₂, hsplit, hp1, hp2, hp3, hp4, hp5⟩
        · exact Or.inl h
        · refine Or.inr ⟨(i, t) :: l₁, p, l₂, by simp [hsplit], hp1, hp2, hp3, hp4, ?_⟩
          intro p' hp' hpm' q' hq'
          rcases List.mem_cons.mp hp' with rfl | hp''
          · exact absurd hmem hpm'
          · exact hp5 p' hp'' hpm' q' hq'
    · rcases hiou : calculateIoU det t.box with _ | q
      · have hstep : bestMatchAux det mE ((i, t) :: tl) acc = bestMatchAux det mE tl acc := by
          simp [bestMatchAux, hmem, hiou]
        obtain ⟨IH1, IH2, IH3⟩ := ih acc
        rw [hstep]
        refine ⟨?_, IH2, ?_⟩
        · intro p hp hpm q hq
          rcases List.mem_cons.mp hp with rfl | hp'
          · rw [hiou] at hq; cases hq
          · exact IH1 p hp' hpm q hq
        · rcases IH3 with h | ⟨l₁, p, l₂, hsplit, hp1, hp2, hp3, hp4, hp5⟩
          · exact Or.inl h
          · refine Or.inr ⟨(i, t) :: l₁, p, l₂, by simp [hsplit], hp1, hp2, hp3, hp4, ?_⟩
            intro p' hp' hpm' q' hq'
            rcases List.mem_cons.mp hp' with rfl | hp''
            · rw [hiou] at hq'; cases hq'
            · exact hp5 p' hp'' hpm' q' hq'
      · by_cases hlt : acc.2 < q
        · have hstep : bestMatchAux det mE ((i, t) :: tl) acc
              = bestMatchAux det mE tl (some i, q) := by
            simp [bestMatchAux, hmem, hiou, hlt]
          obtain ⟨IH1, IH2, IH3⟩ := ih (some i, q)
          rw [hstep]
          refine ⟨?_, ?_, ?_⟩
          · intro p hp hpm q' hq'
            rcases List.mem_cons.mp hp with rfl | hp'
            · rw [hiou] at hq'
              injection hq' with h
              subst h
              exact IH2
            · exact IH1 p hp' hpm q' hq'
          · exact le_of_lt (lt_of_lt_of_le hlt IH2)
          · rcases IH3 with h | ⟨l₁, p, l₂, hsplit, hp1, hp2, hp3, hp4, hp5⟩
            · refine Or.inr ⟨[], (i, t), tl, by simp, hmem, ?_, ?_, ?_, by simp⟩
              · rw [h]; exact hiou
              · rw [h]
              · rw [h]; exact hlt
            · refine Or.inr ⟨(i, t) :: l₁, p, l₂, by simp [hsplit], hp1, hp2, hp3,
                lt_trans hlt hp4, ?_⟩
              intro p' hp' hpm' q' hq'
              rcases List.mem_cons.mp hp' with rfl | hp''
              · rw [hiou] at hq'
                injection hq' with h
                subst h
                exact hp4
              · exact hp5 p' hp'' hpm' q' hq'
        · have hstep : bestMatchAux det mE ((i, t) :: tl) acc = bestMatchAux det mE tl acc := by
            simp [bestMatchAux, hmem, hiou, hlt]
          obtain ⟨IH1, IH2, IH3⟩ := ih acc
          rw [hstep]
          refine ⟨?_, IH2, ?_⟩
          · intro p hp hpm q' hq'
            rcases List.mem_cons.mp hp with rfl | hp'
            · rw [hiou] at hq'
              injection hq' with h
              subst h
              exact le_trans (le_of_not_lt hlt) IH2
            · exact IH1 p hp' hpm q' hq'
          · rcases IH3 with h | ⟨l₁, p, l₂, hsplit, hp1, hp2, hp3, hp4, hp5⟩
            · exact Or.inl h
            · refine Or.inr ⟨(i, t) :: l₁, p, l₂, by simp [hsplit], hp1, hp2, hp3, hp4, ?_⟩
              intro p' hp' hpm' q' hq'
              rcases List.mem_cons.mp hp' with rfl | hp''
              · rw [hiou] at hq'
                injection hq' with h
                subst h
                exact lt_of_le_of_lt (le_of_not_lt hlt) hp4
              · exact hp5 p' hp'' hpm' q' hq'

/-- The index list of an enumerated list is strictly increasing. -/
lemma enum_pairwise_fst_lt {α : Type} (l : List α) :
    l.enum.Pairwise (fun a b => a.1 < b.1) := by
  have h := List.pairwise_lt_range l.length
  rw [← List.enum_map_fst l, List.pairwise_map] at h
  exact h

/-- When the matcher returns no candidate, every eligible track's IoU is at
most the initial threshold `1/10`. -/
lemma bestMatch_none (det : Box) (tracks : List Track) (mE : List ℕ)
    (h : (bestMatch det tracks mE).1 = none) :
    ∀ i ti, tracks[i]? = some ti → i ∉ mE →
      ∀ q, calculateIoU det ti.box = some q → q ≤ 1 / 10 := by
  obtain ⟨h1, _, h3⟩ := bestMatchAux_char det mE tracks.enum (none, 1/10)
  rcases h3 with heq | ⟨l₁, p, l₂, _, _, _, hp3, _, _⟩
  · intro i ti hti hmem q hq
    have hmemE : (i, ti) ∈ tracks.enum := List.mem_enum_iff_getElem?.mpr hti
    have := h1 (i, ti) hmemE hmem q hq
    rw [bestMatch] at *
    rw [heq] at this
    exact this
  · rw [bestMatch] at h
    rw [h] at hp3
    cases hp3

/-- When the matcher returns `some j`: `j` is an eligible in-range index,
its IoU is the final best value, strictly above `1/10`; every eligible
track's IoU is at most this value; and every eligible earlier index is
strictly below it (first-argmax tie-break). -/
lemma bestMatch_some (det : Box) (tracks : List Track) (mE : List ℕ) (j : ℕ)
    (h : (bestMatch det tracks mE).1 = some j) :
    ∃ t, tracks[j]? = some t ∧ j ∉ mE
      ∧ calculateIoU det t.box = some (bestMatch det tracks mE).2
      ∧ 1 / 10 < (bestMatch det tracks mE).2
      ∧ (∀ i ti, tracks[i]? = some ti → i ∉ mE →
          ∀ q, calculateIoU det ti.box = some q → q ≤ (bestMatch det tracks mE).2)
      ∧ (∀ i ti, tracks[i]? = some ti → i ∉ mE → i < j →
          ∀ q, calculateIoU det ti.box = some q → q < (bestMatch det tracks mE).2) := by
  obtain ⟨h1, _, h3⟩ := bestMatchAux_char det mE tracks.enum (none, 1/10)
  rcases h3 with heq | ⟨l₁, p, l₂, hsplit, hp1, hp2, hp3, hp4, hp5⟩
  · rw [bestMatch] at h
    rw [heq] at h
    cases h
  · rw [bestMatch] at h ⊢
    have hpj : p.1 = j := by
      rw [hp3] at h
      injection h
    -- the split position equals the index: l₁.length = j
    have hlen : l₁.length < tracks.enum.length := by
      rw [hsplit]
      simp
    have henum_at : tracks.enum[l₁.length]? = some p := by
      rw [hsplit, List.getElem?_append_right (le_refl _)]
      simp
    have hidx : j = l₁.length := by
      have := List.getElem?_eq_getElem hlen
      rw [List.getElem_enum] at this
      rw [henum_at] at this
      have hp := this.symm
      injection hp with hp
      rw [← hpj, ← hp]
    refine ⟨p.2, ?_, by rw [← hpj]; exact hp1, hp2, ?_, ?_, ?_⟩
    · have : (p.1, p.2) ∈ tracks.enum := by
        rw [hsplit]
        exact List.mem_append_right _ (List.mem_cons_self _ _)
      rw [hpj] at this
      exact List.mem_enum_iff_getElem?.mp this
    · -- the initial best is 1/10 and the split case strictly improves it
      exact hp4
    · intro i ti hti hmem q hq
      exact h1 (i, ti) (List.mem_enum_iff_getElem?.mpr hti) hmem q hq
    · intro i ti hti hmem hij q hq
      have hmemE : tracks.enum[i]? = some (i, ti) := by
        have hi : i < tracks.length := by
          by_contra hc
          push_neg at hc
          rw [List.getElem?_eq_none (by simpa using hc)] at hti
          cases hti
        have hi' : i < tracks.enum.length := by simpa using hi
        have := List.getElem?_eq_getElem hi'
        rw [List.getElem_enum] at this
        rw [this]
        have : tracks[i] = ti := by
          have := List.getElem?_eq_getElem hi
          rw [hti] at this
          injection this with h'
          exact h'.symm
        rw [this]
      have hinl₁ : (i, ti) ∈ l₁ := by
        have : tracks.enum[i]? = l₁[i]? := by
          rw [hsplit]
          exact List.getElem?_append_left (by rw [← hidx]; exact hij)
        rw [this] at hmemE
        exact List.getElem?_mem hmemE
      exact hp5 (i, ti) hinl₁ hmem q hq

/-- C3.  In every update cycle, each detection (taken in input order by
phase 1) is matched greedily: IoU is computed against every not-yet-matched
track, the highest-IoU candidate is selected, and the match is accepted
only when that IoU strictly exceeds MATCH_THRESHOLD = 1/10.  On acceptance
the track's box, confidence and classId are overwritten, lastSeen is set to
now, and the detection index and track index are consumed (appended to the
matched sets, so neither is eligible again this cycle).  Ties among
equal-IoU candidates break by lowest track id (given ids increase along
the track list, as the tracker maintains), then by detection input order
(phase 1 processes detections sequentially). -/
theorem greedy_match_spec (det : Detection) (now : ℤ)
    (tracks : List Track) (mE : List ℕ)
    (hsort : tracks.Pairwise (fun a b => a.id < b.id)) :
    ((bestMatch det.box tracks mE).1 = none →
      ∀ i ti, tracks[i]? = some ti → i ∉ mE →
        jsGt (calculateIoU det.box ti.box) (1 / 10) = false)
    ∧ (∀ j, (bestMatch det.box tracks mE).1 = some j →
        ∃ t, tracks[j]? = some t ∧ j ∉ mE
          ∧ calculateIoU det.box t.box = some (bestMatch det.box tracks mE).2
          ∧ 1 / 10 < (bestMatch det.box tracks mE).2
          ∧ (∀ i ti, tracks[i]? = some ti → i ∉ mE →
              ∀ q, calculateIoU det.box ti.box = some q →
                q ≤ (bestMatch det.box tracks mE).2)
          ∧ (∀ i ti, tracks[i]? = some ti → i ∉ mE →
              calculateIoU det.box ti.box = some (bestMatch det.box tracks mE).2 →
                t.id ≤ ti.id)
          ∧ applyMatch tracks j det now
              = tracks.set j
                  ⟨t.id, det.box, det.score, det.classId, now⟩)
    ∧ (∀ k ds pr, processDets now ((k, det) :: ds) ⟨tracks, mE, pr⟩ =
        match (bestMatch det.box tracks mE).1 with
        | some j => processDets now ds
            ⟨applyMatch tracks j det now, mE ++ [j], pr ++ [(k, j)]⟩
        | none => processDets now ds ⟨tracks, mE, pr⟩) := by
  refine ⟨?_, ?_, ?_⟩
  · intro h i ti hti hmem
    have hle := bestMatch_none det.box tracks mE h i ti hti hmem
    rcases hiou : calculateIoU det.box ti.box with _ | q
    · rfl
    · have := hle q hiou
      simp [jsGt]
      linarith
  · intro j h
    obtain ⟨t, ht, hmem, hiou, hthr, hdom, hfirst⟩ := bestMatch_some det.box tracks mE j h
    refine ⟨t, ht, hmem, hiou, hthr, hdom, ?_, ?_⟩
    · intro i ti hti hmemi hioui
      rcases lt_trichotomy i j with hij | hij | hij
      · exact absurd hioui (by
          intro hc
          exact lt_irrefl _ (hfirst i ti hti hmemi hij _ hc))
      · subst hij
        rw [ht] at hti
        injection hti with hti
        rw [hti]
      · have hjlen : j < tracks.length := by
          by_contra hc
          push_neg at hc
          rw [List.getElem?_eq_none hc] at ht
          cases ht
        have hilen : i < tracks.length := by
          by_contra hc
          push_neg at hc
          rw [List.getElem?_eq_none hc] at hti
          cases hti
        have hR := (List.pairwise_iff_getElem.mp hsort) j i hjlen hilen hij
        have htj : tracks[j] = t := by
          have := List.getElem?_eq_getElem hjlen
          rw [ht] at this
          injection this with h'
          exact h'.symm
        have hti' : tracks[i] = ti := by
          have := List.getElem?_eq_getElem hilen
          rw [hti] at this
          injection this with h'
          exact h'.symm
        rw [htj, hti'] at hR
        exact le_of_lt hR
    · unfold applyMatch
      rw [List.get?_eq_getElem?, ht]
  · intro k ds pr
    rfl

/-- Invariant of phase 1: the accepted pairs' track components mirror the
matched-track set and stay duplicate-free, and the pairs' detection
components are duplicate-free, provided the remaining detection indices are
strictly increasing and above all recorded ones. -/
lemma processDets_inv (now : ℤ) :
    ∀ (ds : List (ℕ × Detection)) (s : MatchState),
      s.pairs.map Prod.snd = s.matchedE →
      s.matchedE.Nodup →
      (∀ p ∈ s.pairs, ∀ d ∈ ds, p.1 < d.1) →
      (s.pairs.map Prod.fst).Nodup →
      ds.Pairwise (fun a b => a.1 < b.1) →
      ((processDets now ds s).pairs.map Prod.snd = (processDets now ds s).matchedE
        ∧ (processDets now ds s).matchedE.Nodup
        ∧ ((processDets now ds s).pairs.map Prod.fst).Nodup)
  | [], s => by
    intro h1 h2 _ h4 _
    exact ⟨h1, h2, h4⟩
  | (k, d) :: ds, s => by
    intro h1 h2 h3 h4 h5
    rcases hbm : (bestMatch d.box s.tracks s.matchedE).1 with _ | j
    · have hstep : processDets now ((k, d) :: ds) s = processDets now ds s := by
        simp only [processDets, hbm]
      rw [hstep]
      exact processDets_inv now ds s h1 h2
        (fun p hp d' hd' => h3 p hp d' (List.mem_cons_of_mem _ hd')) h4
        (List.Pairwise.sublist (List.sublist_cons_self _ _) h5)
    · obtain ⟨t, _, hjmem, _⟩ := bestMatch_some d.box s.tracks s.matchedE j hbm
      have hstep : processDets now ((k, d) :: ds) s
          = processDets now ds
              ⟨applyMatch s.tracks j d now, s.matchedE ++ [j], s.pairs ++ [(k, j)]⟩ := by
        simp only [processDets, hbm]
      rw [hstep]
      apply processDets_inv now ds
      · simp [h1]
      · simp [List.nodup_append, h2]
        intro hj
        exact hjmem hj
      · intro p hp d' hd'
        rcases List.mem_append.mp hp with hp' | hp'
        · exact h3 p hp' d' (List.mem_cons_of_mem _ hd')
        · have : p = (k, j) := by simpa using hp'
          subst this
          exact (List.pairwise_cons.mp h5).1 d' hd'
      · simp only [List.map_append]
        rw [List.nodup_append]
        refine ⟨h4, by simp, ?_⟩
        intro a ha
        simp only [List.map_cons, List.map_nil, List.mem_singleton] at *
        rcases List.mem_map.mp ha with ⟨p, hp, rfl⟩
        have := h3 p hp (k, d) (List.mem_cons_self _ _)
        intro hc
        rw [hc] at this
        exact lt_irrefl _ this
      · exact List.Pairwise.sublist (List.sublist_cons_self _ _) h5

/-- C5.  Matching is strictly 1:1 in every update cycle: among the accepted
(detection index, track index) pairs of a cycle, no detection index occurs
twice and no track index occurs twice. -/
theorem matching_one_to_one (dets : List Detection) (now : ℤ)
    (tracks : List Track) (nextId : ℕ) :
    ((updateTrackedDefects dets now tracks nextId).pairs.map Prod.fst).Nodup
    ∧ ((updateTrackedDefects dets now tracks nextId).pairs.map Prod.snd).Nodup := by
  have h := processDets_inv now dets.enum ⟨tracks, [], []⟩ rfl List.nodup_nil
      (by intro p hp; cases hp) List.nodup_nil (enum_pairwise_fst_lt dets)
  obtain ⟨h1, h2, h3⟩ := h
  have hpairs : (updateTrackedDefects dets now tracks nextId).pairs
      = (processDets now dets.enum ⟨tracks, [], []⟩).pairs := rfl
  rw [hpairs]
  exact ⟨h3, by rw [h1]; exact h2⟩

/-- Phase 2 only ever appends to the working track list. -/
lemma createTracks_tracks_mono (now : ℤ) (mN : List ℕ) :
    ∀ (ds : List (ℕ × Detection)) (s : CreateState) (t : Track),
      t ∈ s.tracks → t ∈ (createTracks now mN ds s).tracks
  | [], s, t => fun h => h
  | (k, d) :: ds, s, t => by
    intro h
    by_cases h1 : k ∈ mN
    · rw [show createTracks now mN ((k, d) :: ds) s = createTracks now mN ds s by
        simp only [createTracks, if_pos h1]]
      exact createTracks_tracks_mono now mN ds s t h
    · by_cases h2 : tooClose d.box s.tracks
      · rw [show createTracks now mN ((k, d) :: ds) s = createTracks now mN ds s by
          simp only [createTracks, if_neg h1, if_pos h2]]
        exact createTracks_tracks_mono now mN ds s t h
      · rw [show createTracks now mN ((k, d) :: ds) s = createTracks now mN ds
            ⟨s.tracks ++ [⟨s.nextId, d.box, d.score, d.classId, now⟩], s.nextId + 1,
              s.created ++ [(k, ⟨s.nextId, d.box, d.score, d.classId, now⟩)]⟩ by
          simp only [createTracks, if_neg h1, if_neg h2]]
        exact createTracks_tracks_mono now mN ds _ t (List.mem_append_left _ h)

/-- Every detection index recorded by phase 2 was already recorded or is
one of the processed indices. -/
lemma createTracks_created_fst (now : ℤ) (mN : List ℕ) :
    ∀ (ds : List (ℕ × Detection)) (s : CreateState) (k : ℕ),
      k ∈ (createTracks now mN ds s).created.map Prod.fst →
      k ∈ s.created.map Prod.fst ∨ k ∈ ds.map Prod.fst
  | [], s, k => fun h => Or.inl h
  | (k', d) :: ds, s, k => by
    intro h
    by_cases h1 : k' ∈ mN
    · rw [show createTracks now mN ((k', d) :: ds) s = createTracks now mN ds s by
        simp only [createTracks, if_pos h1]] at h
      rcases createTracks_created_fst now mN ds s k h with h' | h'
      · exact Or.inl h'
      · exact Or.inr (by simp [h'])
    · by_cases h2 : tooClose d.box s.tracks
      · rw [show createTracks now mN ((k', d) :: ds) s = createTracks now mN ds s by
          simp only [createTracks, if_neg h1, if_pos h2]] at h
        rcases createTracks_created_fst now mN ds s k h with h' | h'
        · exact Or.inl h'
        · exact Or.inr (by simp [h'])
      · rw [show createTracks now mN ((k', d) :: ds) s = createTracks now mN ds
            ⟨s.tracks ++ [⟨s.nextId, d.box, d.score, d.classId, now⟩], s.nextId + 1,
              s.created ++ [(k', ⟨s.nextId, d.box, d.score, d.classId, now⟩)]⟩ by
          simp only [createTracks, if_neg h1, if_neg h2]] at h
        rcases createTracks_created_fst now mN ds _ k h with h' | h'
        · simp only [List.map_append, List.mem_append] at h'
          rcases h' with h' | h'
          · exact Or.inl h'
          · exact Or.inr (by simp at h'; simp [h'])
        · exact Or.inr (by simp [h'])

/-- Anti-duplication suppression: a detection whose box has IoU strictly
above `1/20` with some track already in the working list never creates a
track in the rest of phase 2. -/
lemma createTracks_suppress (now : ℤ) (mN : List ℕ) :
    ∀ (ds : List (ℕ × Detection)) (s : CreateState) (j : ℕ) (dj : Detection),
      (ds.map Prod.fst).Nodup →
      (j, dj) ∈ ds →
      j ∉ s.created.map Prod.fst →
      (∃ t ∈ s.tracks, jsGt (calculateIoU dj.box t.box) (1 / 20) = true) →
      j ∉ (createTracks now mN ds s).created.map Prod.fst
  | [], s, j, dj => by
    intro _ hmem
    cases hmem
  | (k, d) :: ds, s, j, dj => by
    intro hnd hmem hjc hwit
    have hnd' : (ds.map Prod.fst).Nodup := by
      simp only [List.map_cons] at hnd
      exact hnd.of_cons
    have hknotin : k ∉ ds.map Prod.fst := by
      simp only [List.map_cons] at hnd
      exact (List.nodup_cons.mp hnd).1
    by_cases hkj : k = j
    · -- the head carries index j; it must be the pair (j, dj)
      subst hkj
      have hd : d = dj := by
        rcases List.mem_cons.mp hmem with h | h
        · exact (((Prod.mk.injEq _ _ _ _).mp h).2).symm
        · exact absurd (List.mem_map_of_mem Prod.fst h) hknotin
      subst hd
      have htc : tooClose d.box s.tracks = true := by
        obtain ⟨t, ht, hgt⟩ := hwit
        exact List.any_eq_true.mpr ⟨t, ht, hgt⟩
      by_cases h1 : k ∈ mN
      · rw [show createTracks now mN ((k, d) :: ds) s = createTracks now mN ds s by
          simp only [createTracks, if_pos h1]]
        intro hc
        rcases createTracks_created_fst now mN ds s k hc with h' | h'
        · exact hjc h'
        · exact hknotin h'
      · rw [show createTracks now mN ((k, d) :: ds) s = createTracks now mN ds s by
          simp only [createTracks, if_neg h1, if_pos htc]]
        intro hc
        rcases createTracks_created_fst now mN ds s k hc with h' | h'
        · exact hjc h'
        · exact hknotin h'
    · have hmem' : (j, dj) ∈ ds := by
        rcases List.mem_cons.mp hmem with h | h
        · injection h with h1 _
          exact absurd h1.symm hkj
        · exact h
      by_cases h1 : k ∈ mN
      · rw [show createTracks now mN ((k, d) :: ds) s = createTracks now mN ds s by
          simp only [createTracks, if_pos h1]]
        exact createTracks_suppress now mN ds s j dj hnd' hmem' hjc hwit
      · by_cases h2 : tooClose d.box s.tracks
        · rw [show createTracks now mN ((k, d) :: ds) s = createTracks now mN ds s by
            simp only [createTracks, if_neg h1, if_pos h2]]
          exact createTracks_suppress now mN ds s j dj hnd' hmem' hjc hwit
        · rw [show createTracks now mN ((k, d) :: ds) s = createTracks now mN ds
              ⟨s.tracks ++ [⟨s.nextId, d.box, d.score, d.classId, now⟩], s.nextId + 1,
                s.created ++ [(k, ⟨s.nextId, d.box, d.score, d.classId, now⟩)]⟩ by
            simp only [createTracks, if_neg h1, if_neg h2]]
          apply createTracks_suppress now mN ds _ j dj hnd' hmem'
          · simp only [List.map_append, List.mem_append]
            intro hc
            rcases hc with h' | h'
            · exact hjc h'
            · simp at h'
              exact hkj h'.symm
          · obtain ⟨t, ht, hgt⟩ := hwit
            exact ⟨t, List.mem_append_left _ ht, hgt⟩

/-- Two detections processed in one phase-2 pass whose boxes overlap above
the anti-duplication threshold (in both comparison orders, as the scan
computes them) never both create tracks. -/
lemma createTracks_not_both (now : ℤ) (mN : List ℕ) :
    ∀ (ds : List (ℕ × Detection)) (s : CreateState) (i j : ℕ) (di dj : Detection),
      (ds.map Prod.fst).Nodup →
      i ≠ j →
      (i, di) ∈ ds → (j, dj) ∈ ds →
      jsGt (calculateIoU di.box dj.box) (1 / 20) = true →
      jsGt (calculateIoU dj.box di.box) (1 / 20) = true →
      i ∉ s.created.map Prod.fst →
      j ∉ s.created.map Prod.fst →
      ¬(i ∈ (createTracks now mN ds s).created.map Prod.fst
        ∧ j ∈ (createTracks now mN ds s).created.map Prod.fst)
  | [], s, i, j, di, dj => by
    intro _ _ hmi
    cases hmi
  | (k, d) :: ds, s, i, j, di, dj => by
    intro hnd hij hmi hmj hgt1 hgt2 hic hjc
    have hnd' : (ds.map Prod.fst).Nodup := by
      simp only [List.map_cons] at hnd
      exact hnd.of_cons
    have hknotin : k ∉ ds.map Prod.fst := by
      simp only [List.map_cons] at hnd
      exact (List.nodup_cons.mp hnd).1
    have hhead : ∀ (x : ℕ) (dx : Detection), (x, dx) ∈ (k, d) :: ds → k = x → d = dx := by
      intro x dx hx hkx
      subst hkx
      rcases List.mem_cons.mp hx with h | h
      · exact (((Prod.mk.injEq _ _ _ _).mp h).2).symm
      · exact absurd (List.mem_map_of_mem Prod.fst h) hknotin
    have htail : ∀ (x : ℕ) (dx : Detection), (x, dx) ∈ (k, d) :: ds → k ≠ x →
        (x, dx) ∈ ds := by
      intro x dx hx hkx
      rcases List.mem_cons.mp hx with h | h
      · exact absurd (((Prod.mk.injEq _ _ _ _).mp h).1).symm hkx
      · exact h
    by_cases hki : k = i
    · -- head is detection i
      have hd : d = di := hhead i di hmi hki
      subst hd
      subst hki
      by_cases h1 : k ∈ mN
      · rw [show createTracks now mN ((k, d) :: ds) s = createTracks now mN ds s by
          simp only [createTracks, if_pos h1]]
        intro ⟨hci, _⟩
        rcases createTracks_created_fst now mN ds s k hci with h' | h'
        · exact hic h'
        · exact hknotin h'
      · by_cases h2 : tooClose d.box s.tracks
        · rw [show createTracks now mN ((k, d) :: ds) s = createTracks now mN ds s by
            simp only [createTracks, if_neg h1, if_pos h2]]
          intro ⟨hci, _⟩
          rcases createTracks_created_fst now mN ds s k hci with h' | h'
          · exact hic h'
          · exact hknotin h'
        · rw [show createTracks now mN ((k, d) :: ds) s = createTracks now mN ds
              ⟨s.tracks ++ [⟨s.nextId, d.box, d.score, d.classId, now⟩], s.nextId + 1,
                s.created ++ [(k, ⟨s.nextId, d.box, d.score, d.classId, now⟩)]⟩ by
            simp only [createTracks, if_neg h1, if_neg h2]]
          intro ⟨_, hcj⟩
          have hjds : (j, dj) ∈ ds := htail j dj hmj (by intro h; exact hij h)
          refine createTracks_suppress now mN ds _ j dj hnd' hjds ?_ ?_ hcj
          · simp only [List.map_append, List.mem_append]
            intro hc
            rcases hc with h' | h'
            · exact hjc h'
            · simp at h'
              exact hij h'.symm
          · exact ⟨⟨s.nextId, d.box, d.score, d.classId, now⟩,
              List.mem_append_right _ (List.mem_singleton.mpr rfl), hgt2⟩
    · by_cases hkj : k = j
      · -- head is detection j
        have hd : d = dj := hhead j dj hmj hkj
        subst hd
        subst hkj
        by_cases h1 : k ∈ mN
        · rw [show createTracks now mN ((k, d) :: ds) s = createTracks now mN ds s by
            simp only [createTracks, if_pos h1]]
          intro ⟨_, hcj⟩
          rcases createTracks_created_fst now mN ds s k hcj with h' | h'
          · exact hjc h'
          · exact hknotin h'
        · by_cases h2 : tooClose d.box s.tracks
          · rw [show createTracks now mN ((k, d) :: ds) s = createTracks now mN ds s by
              simp only [createTracks, if_neg h1, if_pos h2]]
            intro ⟨_, hcj⟩
            rcases createTracks_created_fst now mN ds s k hcj with h' | h'
            · exact hjc h'
            · exact hknotin h'
          · rw [show createTracks now mN ((k, d) :: ds) s = createTracks now mN ds
                ⟨s.tracks ++ [⟨s.nextId, d.box, d.score, d.classId, now⟩], s.nextId + 1,
                  s.created ++ [(k, ⟨s.nextId, d.box, d.score, d.classId, now⟩)]⟩ by
              simp only [createTracks, if_neg h1, if_neg h2]]
            intro ⟨hci, _⟩
            have hids : (i, di) ∈ ds := htail i di hmi (by intro h; exact hij h.symm)
            refine createTracks_suppress now mN ds _ i di hnd' hids ?_ ?_ hci
            · simp only [List.map_append, List.mem_append]
              intro hc
              rcases hc with h' | h'
              · exact hic h'
              · simp at h'
                exact hij h'
            · exact ⟨⟨s.nextId, d.box, d.score, d.classId, now⟩,
                List.mem_append_right _ (List.mem_singleton.mpr rfl), hgt1⟩
      · -- head is neither
        have hids : (i, di) ∈ ds := htail i di hmi hki
        have hjds : (j, dj) ∈ ds := htail j dj hmj hkj
        by_cases h1 : k ∈ mN
        · rw [show createTracks now mN ((k, d) :: ds) s = createTracks now mN ds s by
            simp only [createTracks, if_pos h1]]
          exact createTracks_not_both now mN ds s i j di dj hnd' hij hids hjds
            hgt1 hgt2 hic hjc
        · by_cases h2 : tooClose d.box s.tracks
          · rw [show createTracks now mN ((k, d) :: ds) s = createTracks now mN ds s by
              simp only [createTracks, if_neg h1, if_pos h2]]
            exact createTracks_not_both now mN ds s i j di dj hnd' hij hids hjds
              hgt1 hgt2 hic hjc
          · rw [show createTracks now mN ((k, d) :: ds) s = createTracks now mN ds
                ⟨s.tracks ++ [⟨s.nextId, d.box, d.score, d.classId, now⟩], s.nextId + 1,
                  s.created ++ [(k, ⟨s.nextId, d.box, d.score, d.classId, now⟩)]⟩ by
              simp only [createTracks, if_neg h1, if_neg h2]]
            apply createTracks_not_both now mN ds _ i j di dj hnd' hij hids hjds
              hgt1 hgt2
            · simp only [List.map_append, List.mem_append]
              intro hc
              rcases hc with h' | h'
              · exact hic h'
              · simp at h'
                exact hki h'.symm
            · simp only [List.map_append, List.mem_append]
              intro hc
              rcases hc with h' | h'
              · exact hjc h'
              · simp at h'
                exact hkj h'.symm

/-- C4.  In every update cycle, an unmatched detection whose IoU with some
track in the phase-2 working list (the phase-1 output; creations append to
this same list, so tracks created earlier in the cycle are also scanned)
strictly exceeds ANTI_DUP_THRESHOLD = 1/20 = MATCH_THRESHOLD / 2 is
discarded and creates no track; consequently two detections of the same
cycle whose boxes overlap strictly above the threshold never both create
tracks. -/
theorem anti_duplication (dets : List Detection) (now : ℤ)
    (tracks : List Track) (nextId : ℕ) :
    (∀ i di, dets[i]? = some di →
      (∃ t ∈ (processDets now dets.enum ⟨tracks, [], []⟩).tracks,
        jsGt (calculateIoU di.box t.box) (1 / 20) = true) →
      i ∉ (updateTrackedDefects dets now tracks nextId).created.map Prod.fst)
    ∧ (∀ i j di dj, i ≠ j → dets[i]? = some di → dets[j]? = some dj →
        jsGt (calculateIoU di.box dj.box) (1 / 20) = true →
        ¬(i ∈ (updateTrackedDefects dets now tracks nextId).created.map Prod.fst
          ∧ j ∈ (updateTrackedDefects dets now tracks nextId).created.map Prod.fst)) := by
  have hnd : (dets.enum.map Prod.fst).Nodup := by
    rw [List.enum_map_fst]
    exact List.nodup_range _
  have hcr : (updateTrackedDefects dets now tracks nextId).created
      = (createTracks now
          ((processDets now dets.enum ⟨tracks, [], []⟩).pairs.map Prod.fst)
          dets.enum
          ⟨(processDets now dets.enum ⟨tracks, [], []⟩).tracks, nextId, []⟩).created := rfl
  constructor
  · intro i di hdi hwit
    rw [hcr]
    exact createTracks_suppress now _ dets.enum _ i di hnd
      (List.mem_enum_iff_getElem?.mpr hdi) (by simp) hwit
  · intro i j di dj hij hdi hdj hgt
    rw [hcr]
    have hgt2 : jsGt (calculateIoU dj.box di.box) (1 / 20) = true := by
      rw [calculateIoU_comm]
      exact hgt
    exact createTracks_not_both now _ dets.enum _ i j di dj hnd hij
      (List.mem_enum_iff_getElem?.mpr hdi) (List.mem_enum_iff_getElem?.mpr hdj)
      hgt hgt2 (by simp) (by simp)

/-- C6.  An eviction pass at time `now` keeps exactly the tracks seen
within the last `PERSISTENCE_TIMEOUT = 2000` ms: a track is in the state
after `checkDefectTimeout` iff it was there before and
`now - lastSeen ≤ 2000`; in particular every track with
`now - lastSeen > 2000` is removed. -/
theorem eviction_spec (now : ℤ) (tracks : List Track) (t : Track) :
    t ∈ checkDefectTimeout now tracks ↔ t ∈ tracks ∧ now - t.lastSeen ≤ 2000 := by
  rw [checkDefectTimeout_eq_filter, List.mem_filter]
  simp

/-- C7.  IoU facts for the source's `calculateIoU`: it is symmetric; for
valid positive-area boxes it is a defined value in `[0, 1]`; a
positive-area box against itself gives exactly `1`; and strictly separated
boxes give `0`. -/
theorem iou_algebra :
    (∀ a b, calculateIoU a b = calculateIoU b a)
    ∧ (∀ a b : Box, a.PosArea → b.PosArea →
        ∃ q, calculateIoU a b = some q ∧ 0 ≤ q ∧ q ≤ 1)
    ∧ (∀ a : Box, a.PosArea → calculateIoU a a = some 1)
    ∧ (∀ a b : Box, a.Separated b → calculateIoU a b = some 0) :=
  ⟨calculateIoU_comm, calculateIoU_mem_unitInterval, calculateIoU_self,
    calculateIoU_separated⟩

/-- Witness for the IoU facts at concrete boxes. -/
theorem iou_algebra_witness :
    (calculateIoU ⟨0, 0, 1, 1⟩ ⟨0, 0, 2, 2⟩ = calculateIoU ⟨0, 0, 2, 2⟩ ⟨0, 0, 1, 1⟩)
    ∧ (∃ q, calculateIoU ⟨0, 0, 1, 1⟩ ⟨0, 0, 2, 2⟩ = some q ∧ 0 ≤ q ∧ q ≤ 1)
    ∧ calculateIoU ⟨0, 0, 1, 1⟩ ⟨0, 0, 1, 1⟩ = some 1
    ∧ calculateIoU ⟨0, 0, 1, 1⟩ ⟨2, 2, 3, 3⟩ = some 0 :=
  ⟨iou_algebra.1 _ _,
    iou_algebra.2.1 ⟨0, 0, 1, 1⟩ ⟨0, 0, 2, 2⟩ ⟨by norm_num, by norm_num⟩
      ⟨by norm_num, by norm_num⟩,
    iou_algebra.2.2.1 ⟨0, 0, 1, 1⟩ ⟨by norm_num, by norm_num⟩,
    iou_algebra.2.2.2 ⟨0, 0, 1, 1⟩ ⟨2, 2, 3, 3⟩ (Or.inl (by norm_num))⟩

/-- C8 counterexample.  Two coincident zero-area boxes do not yield IoU 0:
the JavaScript code reaches the division `0/0`, which evaluates to `NaN`
(modelled `none`), not to the number `0`. -/
theorem iou_zero_area_counterexample :
    calculateIoU ⟨0, 0, 0, 0⟩ ⟨0, 0, 0, 0⟩ = none
    ∧ calculateIoU ⟨0, 0, 0, 0⟩ ⟨0, 0, 0, 0⟩ ≠ some 0 := by
  have h := calculateIoU_self_zero_area ⟨0, 0, 0, 0⟩
    ⟨by norm_num, by norm_num⟩ (by norm_num [Box.area])
  exact ⟨h, by rw [h]; simp⟩

/-- C8 (amended).  `calculateIoU` is a total function (no exception for any
finite input): any pair of valid boxes of which at least one has positive
area yields a defined numeric result; a coincident zero-area pair yields
the JavaScript `NaN` (modelled `none`) rather than a division fault — and
`NaN`, not being `0`, silently fails every strict threshold comparison. -/
theorem iou_no_fault (a b : Box) (hva : a.Valid) (hvb : b.Valid) :
    (calculateIoU a b = none → ∀ t, jsGt (calculateIoU a b) t = false)
    ∧ (a.area = 0 → calculateIoU a a = none)
    ∧ (0 < a.area ∨ 0 < b.area → ∃ q, calculateIoU a b = some q) := by
  refine ⟨?_, fun h0 => calculateIoU_self_zero_area a hva h0, ?_⟩
  · intro hnan t
    rw [hnan]
    rfl
  · intro harea
    obtain ⟨hax, hay⟩ := hva
    obtain ⟨hbx, hby⟩ := hvb
    unfold calculateIoU
    by_cases hsep : min a.x2 b.x2 < max a.x1 b.x1 ∨ min a.y2 b.y2 < max a.y1 b.y1
    · exact ⟨0, by rw [if_pos hsep]⟩
    · push_neg at hsep
      obtain ⟨hsx, hsy⟩ := hsep
      set xL := max a.x1 b.x1
      set yT := max a.y1 b.y1
      set xR := min a.x2 b.x2
      set yB := min a.y2 b.y2
      have hIx : xR - xL ≥ 0 := by linarith
      have hIy : yB - yT ≥ 0 := by linarith
      have hIxA : xR - xL ≤ a.x2 - a.x1 := by
        have h1 : xR ≤ a.x2 := min_le_left _ _
        have h2 : a.x1 ≤ xL := le_max_left _ _
        linarith
      have hIyA : yB - yT ≤ a.y2 - a.y1 := by
        have h1 : yB ≤ a.y2 := min_le_left _ _
        have h2 : a.y1 ≤ yT := le_max_left _ _
        linarith
      have hIxB : xR - xL ≤ b.x2 - b.x1 := by
        have h1 : xR ≤ b.x2 := min_le_right _ _
        have h2 : b.x1 ≤ xL := le_max_right _ _
        linarith
      have hIyB : yB - yT ≤ b.y2 - b.y1 := by
        have h1 : yB ≤ b.y2 := min_le_right _ _
        have h2 : b.y1 ≤ yT := le_max_right _ _
        linarith
      have hInterA : (xR - xL) * (yB - yT) ≤ (a.x2 - a.x1) * (a.y2 - a.y1) :=
        mul_le_mul hIxA hIyA hIy (by linarith)
      have hInterB : (xR - xL) * (yB - yT) ≤ (b.x2 - b.x1) * (b.y2 - b.y1) :=
        mul_le_mul hIxB hIyB hIy (by linarith)
      have hA0 : 0 ≤ (a.x2 - a.x1) * (a.y2 - a.y1) := by
        apply mul_nonneg <;> linarith
      have hB0 : 0 ≤ (b.x2 - b.x1) * (b.y2 - b.y1) := by
        apply mul_nonneg <;> linarith
      have hUnion : (a.x2 - a.x1) * (a.y2 - a.y1) + (b.x2 - b.x1) * (b.y2 - b.y1)
          - (xR - xL) * (yB - yT) ≠ 0 := by
        rcases harea with h | h
        · have : 0 < (a.x2 - a.x1) * (a.y2 - a.y1) := h
          intro hc
          nlinarith
        · have : 0 < (b.x2 - b.x1) * (b.y2 - b.y1) := h
          intro hc
          nlinarith
      rw [if_neg (by push_neg; exact ⟨hsx, hsy⟩), if_neg hUnion]
      exact ⟨_, rfl⟩

/-- Witness for the amended no-fault claim at concrete boxes. -/
theorem iou_no_fault_witness :
    ((⟨0, 0, 0, 0⟩ : Box).area = 0 → calculateIoU ⟨0, 0, 0, 0⟩ ⟨0, 0, 0, 0⟩ = none)
    ∧ (0 < (⟨0, 0, 1, 1⟩ : Box).area ∨ 0 < (⟨0, 0, 0, 0⟩ : Box).area →
        ∃ q, calculateIoU ⟨0, 0, 1, 1⟩ ⟨0, 0, 0, 0⟩ = some q) :=
  ⟨(iou_no_fault ⟨0, 0, 0, 0⟩ ⟨0, 0, 0, 0⟩ ⟨by norm_num, by norm_num⟩
      ⟨by norm_num, by norm_num⟩).2.1,
    (iou_no_fault ⟨0, 0, 1, 1⟩ ⟨0, 0, 0, 0⟩ ⟨by norm_num, by norm_num⟩
      ⟨by norm_num, by norm_num⟩).2.2⟩

/-- C9.  On every promotion (cooldown satisfied and the candidate box not a
duplicate), `addDefect` appends exactly one `Defect`: id
`DEF-<trackId>-<last four digits of now>`, timestamp `now`, position the
box centre divided by the 640 px frame side with `z = 0`, severity from the
confidence thresholds 0.9 / 0.8 / 0.7, confidence as a percentage; the box
is remembered and the global promotion time becomes `now`. -/
theorem promotion_record_spec (f : Track) (now : ℤ) (s : PromoterState)
    (hcool : 2000 ≤ now - s.lastAddTime)
    (hdup : isDuplicate f.box s.processedBoxes = false) :
    addDefect f now s =
      { processedBoxes := s.processedBoxes ++ [f.box]
        lastAddTime := now
        defects := s.defects ++
          [{ id := "DEF-" ++ toString f.id ++ "-" ++ lastFour now
             timestamp := now
             position := ⟨(f.box.x1 + f.box.x2) / 2 / 640,
               (f.box.y1 + f.box.y2) / 2 / 640, 0⟩
             severity := if 9 / 10 < f.conf then "critical"
               else if 8 / 10 < f.conf then "high"
               else if 7 / 10 < f.conf then "medium"
               else "low"
             dtype := "Sewer Defect"
             confidence := f.conf * 100 }] } := by
  unfold addDefect
  rw [if_neg (by omega), if_neg (by simp [hdup])]
  rfl

/-- Witness for the promotion-record claim at a concrete input. -/
theorem promotion_record_spec_witness :
    (2000 ≤ (5000 : ℤ) - initPromoter.lastAddTime)
    ∧ isDuplicate (⟨0, 0, 10, 10⟩ : Box) initPromoter.processedBoxes = false
    ∧ addDefect ⟨3, ⟨0, 0, 10, 10⟩, 95 / 100, 0, 5000⟩ 5000 initPromoter =
      { processedBoxes := initPromoter.processedBoxes ++ [⟨0, 0, 10, 10⟩]
        lastAddTime := 5000
        defects := initPromoter.defects ++
          [{ id := "DEF-" ++ toString (3 : ℕ) ++ "-" ++ lastFour 5000
             timestamp := 5000
             position := ⟨(0 + 10) / 2 / 640, (0 + 10) / 2 / 640, 0⟩
             severity := if (9 : ℚ) / 10 < 95 / 100 then "critical"
               else if (8 : ℚ) / 10 < 95 / 100 then "high"
               else if (7 : ℚ) / 10 < 95 / 100 then "medium"
               else "low"
             dtype := "Sewer Defect"
             confidence := 95 / 100 * 100 }] } :=
  ⟨by norm_num [initPromoter],
    rfl,
    promotion_record_spec ⟨3, ⟨0, 0, 10, 10⟩, 95 / 100, 0, 5000⟩ 5000 initPromoter
      (by norm_num [initPromoter]) rfl⟩

/-- C10.  The promoter's duplicate-suppression memory is never pruned: every
`addDefect` call leaves the processed-box list as a prefix of the new one;
and a candidate whose box has IoU strictly above `1/2` with any remembered
box is suppressed — the promoter state (memory, cooldown clock and defect
store) is left completely unchanged, regardless of tracker state, evictions
or fresh track ids. -/
theorem promoter_memory_spec (f : Track) (now : ℤ) (s : PromoterState) :
    (∃ tail, (addDefect f now s).processedBoxes = s.processedBoxes ++ tail)
    ∧ ((∃ e ∈ s.processedBoxes, jsGt (calculateIoU f.box e) (1 / 2) = true) →
        addDefect f now s = s) := by
  constructor
  · unfold addDefect
    by_cases h1 : now - s.lastAddTime < 2000
    · exact ⟨[], by rw [if_pos h1]; simp⟩
    · by_cases h2 : isDuplicate f.box s.processedBoxes
      · exact ⟨[], by rw [if_neg h1, if_pos h2]; simp⟩
      · exact ⟨[f.box], by rw [if_neg h1, if_neg h2]⟩
  · intro hdup
    unfold addDefect
    by_cases h1 : now - s.lastAddTime < 2000
    · rw [if_pos h1]
    · rw [if_neg h1, if_pos (by
        unfold isDuplicate
        obtain ⟨e, he, hgt⟩ := hdup
        exact List.any_eq_true.mpr ⟨e, he, hgt⟩)]

/-- Witness for the promoter-memory claim at a concrete input. -/
theorem promoter_memory_spec_witness :
    (∃ tail, (addDefect ⟨7, ⟨0, 0, 10, 10⟩, 1 / 2, 0, 9000⟩ 9000
        ⟨[⟨0, 0, 10, 10⟩], 0, []⟩).processedBoxes = [(⟨0, 0, 10, 10⟩ : Box)] ++ tail)
    ∧ ((∃ e ∈ [(⟨0, 0, 10, 10⟩ : Box)],
          jsGt (calculateIoU (⟨0, 0, 10, 10⟩ : Box) e) (1 / 2) = true)
        ∧ addDefect ⟨7, ⟨0, 0, 10, 10⟩, 1 / 2, 0, 9000⟩ 9000
            ⟨[⟨0, 0, 10, 10⟩], 0, []⟩ = ⟨[⟨0, 0, 10, 10⟩], 0, []⟩) := by
  have hgt : jsGt (calculateIoU (⟨0, 0, 10, 10⟩ : Box) ⟨0, 0, 10, 10⟩) (1 / 2) = true := by
    rw [calculateIoU_self ⟨0, 0, 10, 10⟩ ⟨by norm_num, by norm_num⟩]
    simp [jsGt]
    norm_num
  have hex : ∃ e ∈ [(⟨0, 0, 10, 10⟩ : Box)],
      jsGt (calculateIoU (⟨0, 0, 10, 10⟩ : Box) e) (1 / 2) = true :=
    ⟨⟨0, 0, 10, 10⟩, List.mem_singleton.mpr rfl, hgt⟩
  refine ⟨(promoter_memory_spec ⟨7, ⟨0, 0, 10, 10⟩, 1 / 2, 0, 9000⟩ 9000
      ⟨[⟨0, 0, 10, 10⟩], 0, []⟩).1, hex,
    (promoter_memory_spec ⟨7, ⟨0, 0, 10, 10⟩, 1 / 2, 0, 9000⟩ 9000
      ⟨[⟨0, 0, 10, 10⟩], 0, []⟩).2 hex⟩

/-- Cooldown branch of `addDefect`: too soon after the last promotion, the
call is a no-op. -/
lemma addDefect_eq_of_cooldown (f : Track) (now : ℤ) (s : PromoterState)
    (h : now - s.lastAddTime < 2000) : addDefect f now s = s := by
  unfold addDefect
  rw [if_pos h]

/-- Duplicate branch of `addDefect`: a remembered overlapping box makes the
call a no-op (also when the cooldown already blocks it). -/
lemma addDefect_eq_of_dup (f : Track) (now : ℤ) (s : PromoterState)
    (h : isDuplicate f.box s.processedBoxes = true) : addDefect f now s = s := by
  unfold addDefect
  by_cases h1 : now - s.lastAddTime < 2000
  · rw [if_pos h1]
  · rw [if_neg h1, if_pos h]

/-- Promotion branch of `addDefect`: cooldown passed and no duplicate. -/
lemma addDefect_eq_of_promote (f : Track) (now : ℤ) (s : PromoterState)
    (h1 : ¬ now - s.lastAddTime < 2000)
    (h2 : isDuplicate f.box s.processedBoxes = false) :
    addDefect f now s
      = ⟨s.processedBoxes ++ [f.box], now, s.defects ++ [mkDefect f now]⟩ := by
  unfold addDefect
  rw [if_neg h1, if_neg (by simp [h2])]

/-- Promoter invariant: every stored defect was promoted no later than the
global promotion clock, and consecutive promotions are at least
`COOLDOWN_MS = 2000` ms apart. -/
def PromoterInv (s : PromoterState) : Prop :=
  (∀ d ∈ s.defects, d.timestamp ≤ s.lastAddTime)
  ∧ (s.defects.map Defect.timestamp).Pairwise (fun a b => a + 2000 ≤ b)

lemma addDefect_inv (f : Track) (now : ℤ) (s : PromoterState)
    (h : PromoterInv s) : PromoterInv (addDefect f now s) := by
  obtain ⟨h1, h2⟩ := h
  by_cases hc : now - s.lastAddTime < 2000
  · rw [addDefect_eq_of_cooldown f now s hc]
    exact ⟨h1, h2⟩
  · rcases hd : isDuplicate f.box s.processedBoxes with _ | _
    · rw [addDefect_eq_of_promote f now s hc hd]
      constructor
      · intro d hdm
        rcases List.mem_append.mp hdm with hdm' | hdm'
        · have := h1 d hdm'
          simp only
          omega
        · simp only [List.mem_singleton] at hdm'
          subst hdm'
          simp [mkDefect]
      · simp only [List.map_append]
        rw [List.pairwise_append]
        refine ⟨h2, by simp, ?_⟩
        intro a ha b hb
        rcases List.mem_map.mp ha with ⟨d, hdm, rfl⟩
        simp only [List.map_cons, List.map_nil, List.mem_singleton] at hb
        subst hb
        have := h1 d hdm
        simp [mkDefect]
        omega
    · rw [addDefect_eq_of_dup f now s hd]
      exact ⟨h1, h2⟩

lemma initPromoter_inv : PromoterInv initPromoter := by
  unfold PromoterInv initPromoter
  exact ⟨fun d hd => absurd hd (List.not_mem_nil d), by simp⟩

lemma runPromotions_inv (calls : List (Track × ℤ)) :
    ∀ s : PromoterState, PromoterInv s → PromoterInv (runPromotions calls s) := by
  induction calls with
  | nil => intro s h; exact h
  | cons c cs ih =>
    intro s h
    have hstep : runPromotions (c :: cs) s = runPromotions cs (addDefect c.1 c.2 s) := rfl
    rw [hstep]
    exact ih _ (addDefect_inv c.1 c.2 s h)

/-- C2.  The global promotion cooldown: `addDefect` promotes only when
`now - lastAddTime ≥ 2000`; along any sequence of calls starting from a
fresh promoter, the stored defects' timestamps are pairwise at least
2000 ms apart (the cooldown is global, not per-track); of two created
tracks arriving 500 ms apart — the first one promotable — only the first
is promoted; and a third created track arriving at least 2000 ms after
that promotion, with a non-duplicate box, is promoted. -/
theorem promotion_cooldown_spec :
    (∀ (f : Track) (now : ℤ) (s : PromoterState),
      (addDefect f now s).defects ≠ s.defects → 2000 ≤ now - s.lastAddTime)
    ∧ (∀ calls : List (Track × ℤ),
        ((runPromotions calls initPromoter).defects.map Defect.timestamp).Pairwise
          (fun a b => a + 2000 ≤ b))
    ∧ (∀ (s : PromoterState) (f1 f2 f3 : Track) (t1 t3 : ℤ),
        2000 ≤ t1 - s.lastAddTime →
        isDuplicate f1.box s.processedBoxes = false →
        2000 ≤ t3 - t1 →
        isDuplicate f3.box (s.processedBoxes ++ [f1.box]) = false →
        (addDefect f1 t1 s).defects = s.defects ++ [mkDefect f1 t1]
        ∧ addDefect f2 (t1 + 500) (addDefect f1 t1 s) = addDefect f1 t1 s
        ∧ (addDefect f3 t3 (addDefect f2 (t1 + 500) (addDefect f1 t1 s))).defects
            = (addDefect f1 t1 s).defects ++ [mkDefect f3 t3]) := by
  refine ⟨?_, ?_, ?_⟩
  · intro f now s hne
    by_contra hc
    push_neg at hc
    rw [addDefect_eq_of_cooldown f now s (by omega)] at hne
    exact hne rfl
  · intro calls
    exact (runPromotions_inv calls initPromoter initPromoter_inv).2
  · intro s f1 f2 f3 t1 t3 hc1 hd1 hc3 hd3
    have h1 : addDefect f1 t1 s
        = ⟨s.processedBoxes ++ [f1.box], t1, s.defects ++ [mkDefect f1 t1]⟩ :=
      addDefect_eq_of_promote f1 t1 s (by omega) hd1
    have h2 : addDefect f2 (t1 + 500) (addDefect f1 t1 s) = addDefect f1 t1 s := by
      apply addDefect_eq_of_cooldown
      rw [h1]
      simp
    refine ⟨by rw [h1], h2, ?_⟩
    rw [h2, h1]
    have h3 := addDefect_eq_of_promote f3 t3
      ⟨s.processedBoxes ++ [f1.box], t1, s.defects ++ [mkDefect f1 t1]⟩
      (by simp only; omega) (by simpa using hd3)
    rw [h3]

/-- Witness for the cooldown claim at concrete inputs. -/
theorem promotion_cooldown_spec_witness :
    ((addDefect ⟨1, ⟨0, 0, 10, 10⟩, 1 / 2, 0, 3000⟩ 3000 initPromoter).defects
        ≠ initPromoter.defects
      → 2000 ≤ (3000 : ℤ) - initPromoter.lastAddTime)
    ∧ (2000 ≤ (3000 : ℤ) - initPromoter.lastAddTime
        ∧ isDuplicate (⟨0, 0, 10, 10⟩ : Box) initPromoter.processedBoxes = false
        ∧ 2000 ≤ (5500 : ℤ) - 3000
        ∧ isDuplicate (⟨20, 20, 30, 30⟩ : Box)
            (initPromoter.processedBoxes ++ [⟨0, 0, 10, 10⟩]) = false
        ∧ ((addDefect ⟨1, ⟨0, 0, 10, 10⟩, 1 / 2, 0, 3000⟩ 3000 initPromoter).defects
            = initPromoter.defects
              ++ [mkDefect ⟨1, ⟨0, 0, 10, 10⟩, 1 / 2, 0, 3000⟩ 3000]
          ∧ addDefect ⟨2, ⟨50, 50, 60, 60⟩, 1 / 2, 0, 3500⟩ (3000 + 500)
              (addDefect ⟨1, ⟨0, 0, 10, 10⟩, 1 / 2, 0, 3000⟩ 3000 initPromoter)
            = addDefect ⟨1, ⟨0, 0, 10, 10⟩, 1 / 2, 0, 3000⟩ 3000 initPromoter
          ∧ (addDefect ⟨3, ⟨20, 20, 30, 30⟩, 1 / 2, 0, 5500⟩ 5500
              (addDefect ⟨2, ⟨50, 50, 60, 60⟩, 1 / 2, 0, 3500⟩ (3000 + 500)
                (addDefect ⟨1, ⟨0, 0, 10, 10⟩, 1 / 2, 0, 3000⟩ 3000
                  initPromoter))).defects
            = (addDefect ⟨1, ⟨0, 0, 10, 10⟩, 1 / 2, 0, 3000⟩ 3000
                initPromoter).defects
              ++ [mkDefect ⟨3, ⟨20, 20, 30, 30⟩, 1 / 2, 0, 5500⟩ 5500])) := by
  have hd3 : isDuplicate (⟨20, 20, 30, 30⟩ : Box)
      (initPromoter.processedBoxes ++ [⟨0, 0, 10, 10⟩]) = false := by
    unfold isDuplicate initPromoter
    simp only [List.nil_append, List.any_cons, List.any_nil, Bool.or_false]
    rw [calculateIoU_separated ⟨20, 20, 30, 30⟩ ⟨0, 0, 10, 10⟩
      (Or.inr (Or.inl (by norm_num)))]
    simp [jsGt]
  refine ⟨fun _ => by norm_num [initPromoter],
    ⟨by norm_num [initPromoter], rfl, by norm_num, hd3, ?_⟩⟩
  exact (promotion_cooldown_spec.2.2 initPromoter
    ⟨1, ⟨0, 0, 10, 10⟩, 1 / 2, 0, 3000⟩ ⟨2, ⟨50, 50, 60, 60⟩, 1 / 2, 0, 3500⟩
    ⟨3, ⟨20, 20, 30, 30⟩, 1 / 2, 0, 5500⟩ 3000 5500
    (by norm_num [initPromoter]) rfl (by norm_num) hd3)

/-- The box of the end-to-end scenario, `[0, 0, 10, 10]`. -/
def c1Box : Box := ⟨0, 0, 10, 10⟩

/-- The detection of the end-to-end scenario, `[0, 0, 10, 10, 0.95]`. -/
def c1Det : Detection := ⟨c1Box, 95 / 100, 0⟩

/-- The first track the scenario creates (id 1, last seen at `t`). -/
def c1Track1 (t : ℤ) : Track := ⟨1, c1Box, 95 / 100, 0, t⟩

/-- The second track the scenario creates (id 2, last seen at `t`). -/
def c1Track2 (t : ℤ) : Track := ⟨2, c1Box, 95 / 100, 0, t⟩

lemma iou_c1Box_self : calculateIoU c1Box c1Box = some 1 :=
  calculateIoU_self c1Box ⟨by norm_num [c1Box], by norm_num [c1Box]⟩

/-- Feeding the scenario detection to an empty tracker creates one track
with the next id. -/
lemma c1_tracker_create (now : ℤ) (n : ℕ) :
    updateTrackedDefects [c1Det] now [] n
      = ⟨[⟨n, c1Box, 95 / 100, 0, now⟩], n + 1, [], [(0, ⟨n, c1Box, 95 / 100, 0, now⟩)]⟩ :=
  rfl

lemma c1_bestMatch (t0 : ℤ) :
    bestMatch c1Det.box [c1Track1 t0] [] = (some 0, 1) := by
  show bestMatchAux c1Det.box [] [(0, c1Track1 t0)] (none, 1 / 10) = (some 0, 1)
  unfold bestMatchAux
  rw [show calculateIoU c1Det.box (c1Track1 t0).box = some 1 from iou_c1Box_self]
  norm_num
  rfl

/-- Feeding the scenario detection while its track is alive matches it:
`lastSeen` is refreshed, nothing is created. -/
lemma c1_tracker_match (t0 now : ℤ) (n : ℕ) :
    updateTrackedDefects [c1Det] now [c1Track1 t0] n
      = ⟨[c1Track1 now], n, [(0, 0)], []⟩ := by
  unfold updateTrackedDefects
  have hm : processDets now [c1Det].enum ⟨[c1Track1 t0], [], []⟩
      = ⟨[c1Track1 now], [0], [(0, 0)]⟩ := by
    show processDets now [(0, c1Det)] ⟨[c1Track1 t0], [], []⟩ = _
    simp only [processDets, c1_bestMatch]
    rfl
  rw [hm]
  rfl

/-- The eviction sweep at `t0 + 2500` removes the track last seen at
`t0 + 100`. -/
lemma c1_evict (t0 : ℤ) :
    checkDefectTimeout (t0 + 2500) [c1Track1 (t0 + 100)] = [] := by
  rw [checkDefectTimeout_eq_filter]
  rw [List.filter_cons]
  have hc : decide (t0 + 2500 - (c1Track1 (t0 + 100)).lastSeen ≤ 2000) = false := by
    rw [decide_eq_false_iff_not]
    show ¬(t0 + 2500 - (t0 + 100) ≤ 2000)
    omega
  rw [hc]
  simp

lemma c1_dup (b : Box) (hb : b = c1Box) : isDuplicate c1Box [b] = true := by
  subst hb
  unfold isDuplicate
  simp only [List.any_cons, List.any_nil, Bool.or_false]
  rw [iou_c1Box_self]
  simp [jsGt]
  norm_num

/-- First cycle of the scenario: one created track, one promoted defect
(requires the session to start at least one cooldown after time zero, the
initial value of the promotion clock). -/
lemma c1_run1 (T : ℤ) (hT : 2000 ≤ T) :
    runCycle [c1Det] T initSys
      = ⟨[c1Track1 T], 2, ⟨[c1Box], T, [mkDefect (c1Track1 T) T]⟩⟩ := by
  unfold runCycle initSys
  rw [show updateTrackedDefects [c1Det] T [] 1
      = ⟨[c1Track1 T], 2, [], [(0, c1Track1 T)]⟩ from rfl]
  simp only [List.foldl_cons, List.foldl_nil]
  rw [addDefect_eq_of_promote (c1Track1 T) T initPromoter
    (by unfold initPromoter; simp only; omega) rfl]
  rfl

/-- Second cycle: the same box matches the live track, refreshes it, and
promotes nothing. -/
lemma c1_run2 (t0 now : ℤ) (p : PromoterState) :
    runCycle [c1Det] now ⟨[c1Track1 t0], 2, p⟩ = ⟨[c1Track1 now], 2, p⟩ := by
  unfold runCycle
  rw [c1_tracker_match t0 now 2]
  rfl

/-- Fourth cycle: after eviction a fresh track (id 2) is created, but the
promoter's box memory suppresses a second defect — whatever the times. -/
lemma c1_run4 (now t1 : ℤ) (dfs : List Defect) :
    runCycle [c1Det] now ⟨[], 2, ⟨[c1Box], t1, dfs⟩⟩
      = ⟨[c1Track2 now], 3, ⟨[c1Box], t1, dfs⟩⟩ := by
  unfold runCycle
  rw [show updateTrackedDefects [c1Det] now [] 2
      = ⟨[c1Track2 now], 3, [], [(0, c1Track2 now)]⟩ from rfl]
  simp only [List.foldl_cons, List.foldl_nil]
  rw [addDefect_eq_of_dup (c1Track2 now) now ⟨[c1Box], t1, dfs⟩
    (c1_dup c1Box rfl)]

/-- C1 (amended).  End-to-end scenario, for any session start `T` at least
one cooldown after the promoter's initial clock value 0: feeding
`[0,0,10,10,0.95]` at `T` creates track 1 and promotes one defect with
severity critical and confidence 95; feeding the same box at `T+100ms`
matches (track 1 refreshed, no new defect); by `T+2500ms` the eviction
sweep removes the track; feeding the box again at `T+2500ms` creates a
fresh track with new id 2, but — cooldown notwithstanding — promotes **no**
new defect: the promoter's never-pruned box memory suppresses it as a
duplicate of the first promotion. -/
theorem end_to_end_scenario (T : ℤ) (hT : 2000 ≤ T) :
    runCycle [c1Det] T initSys
      = ⟨[c1Track1 T], 2, ⟨[c1Box], T, [mkDefect (c1Track1 T) T]⟩⟩
    ∧ (mkDefect (c1Track1 T) T).severity = "critical"
    ∧ (mkDefect (c1Track1 T) T).confidence = 95
    ∧ runCycle [c1Det] (T + 100) (runCycle [c1Det] T initSys)
      = ⟨[c1Track1 (T + 100)], 2, ⟨[c1Box], T, [mkDefect (c1Track1 T) T]⟩⟩
    ∧ evictCycle (T + 2500)
        (runCycle [c1Det] (T + 100) (runCycle [c1Det] T initSys))
      = ⟨[], 2, ⟨[c1Box], T, [mkDefect (c1Track1 T) T]⟩⟩
    ∧ runCycle [c1Det] (T + 2500)
        (evictCycle (T + 2500)
          (runCycle [c1Det] (T + 100) (runCycle [c1Det] T initSys)))
      = ⟨[c1Track2 (T + 2500)], 3, ⟨[c1Box], T, [mkDefect (c1Track1 T) T]⟩⟩ := by
  have h1 := c1_run1 T hT
  have h2 : runCycle [c1Det] (T + 100) (runCycle [c1Det] T initSys)
      = ⟨[c1Track1 (T + 100)], 2, ⟨[c1Box], T, [mkDefect (c1Track1 T) T]⟩⟩ := by
    rw [h1]
    exact c1_run2 T (T + 100) _
  have h3 : evictCycle (T + 2500)
      (runCycle [c1Det] (T + 100) (runCycle [c1Det] T initSys))
      = ⟨[], 2, ⟨[c1Box], T, [mkDefect (c1Track1 T) T]⟩⟩ := by
    rw [h2]
    unfold evictCycle
    rw [c1_evict T]
  have h4 : runCycle [c1Det] (T + 2500)
      (evictCycle (T + 2500)
        (runCycle [c1Det] (T + 100) (runCycle [c1Det] T initSys)))
      = ⟨[c1Track2 (T + 2500)], 3, ⟨[c1Box], T, [mkDefect (c1Track1 T) T]⟩⟩ := by
    rw [h3]
    exact c1_run4 (T + 2500) T _
  refine ⟨h1, ?_, ?_, h2, h3, h4⟩
  · show determineSeverity (c1Track1 T).conf = "critical"
    unfold determineSeverity c1Track1
    norm_num
  · show (c1Track1 T).conf * 100 = 95
    unfold c1Track1
    norm_num

/-- Witness for the end-to-end scenario at the concrete start `T = 10000`. -/
theorem end_to_end_scenario_witness :
    (2000 ≤ (10000 : ℤ))
    ∧ (runCycle [c1Det] 10000 initSys
        = ⟨[c1Track1 10000], 2, ⟨[c1Box], 10000, [mkDefect (c1Track1 10000) 10000]⟩⟩
      ∧ (mkDefect (c1Track1 10000) 10000).severity = "critical"
      ∧ (mkDefect (c1Track1 10000) 10000).confidence = 95
      ∧ runCycle [c1Det] (10000 + 100) (runCycle [c1Det] 10000 initSys)
        = ⟨[c1Track1 (10000 + 100)], 2,
            ⟨[c1Box], 10000, [mkDefect (c1Track1 10000) 10000]⟩⟩
      ∧ evictCycle (10000 + 2500)
          (runCycle [c1Det] (10000 + 100) (runCycle [c1Det] 10000 initSys))
        = ⟨[], 2, ⟨[c1Box], 10000, [mkDefect (c1Track1 10000) 10000]⟩⟩
      ∧ runCycle [c1Det] (10000 + 2500)
          (evictCycle (10000 + 2500)
            (runCycle [c1Det] (10000 + 100) (runCycle [c1Det] 10000 initSys)))
        = ⟨[c1Track2 (10000 + 2500)], 3,
            ⟨[c1Box], 10000, [mkDefect (c1Track1 10000) 10000]⟩⟩) :=
  ⟨by norm_num, end_to_end_scenario 10000 (by norm_num)⟩

/-- C1 counterexample.  In the concrete run of the claimed scenario
(session start 10000 ms), the final feed at `+2500ms` does create a track
with a new id, but the defect store still holds exactly the one defect
promoted at the start: the claimed second promoted Defect does not exist,
because the promoter's duplicate memory suppresses it. -/
theorem end_to_end_counterexample :
    (runCycle [c1Det] (10000 + 2500)
        (evictCycle (10000 + 2500)
          (runCycle [c1Det] (10000 + 100)
            (runCycle [c1Det] 10000 initSys)))).tracks.map Track.id = [2]
    ∧ (runCycle [c1Det] 10000 initSys).promoter.defects.length = 1
    ∧ (runCycle [c1Det] (10000 + 2500)
        (evictCycle (10000 + 2500)
          (runCycle [c1Det] (10000 + 100)
            (runCycle [c1Det] 10000 initSys)))).promoter.defects.length = 1 := by
  have h1 := c1_run1 10000 (by norm_num)
  have h2 : runCycle [c1Det] (10000 + 100) (runCycle [c1Det] 10000 initSys)
      = ⟨[c1Track1 (10000 + 100)], 2,
          ⟨[c1Box], 10000, [mkDefect (c1Track1 10000) 10000]⟩⟩ := by
    rw [h1]
    exact c1_run2 10000 (10000 + 100) _
  have h3 : evictCycle (10000 + 2500)
      (runCycle [c1Det] (10000 + 100) (runCycle [c1Det] 10000 initSys))
      = ⟨[], 2, ⟨[c1Box], 10000, [mkDefect (c1Track1 10000) 10000]⟩⟩ := by
    rw [h2]
    unfold evictCycle
    rw [c1_evict 10000]
  have h4 : runCycle [c1Det] (10000 + 2500)
      (evictCycle (10000 + 2500)
        (runCycle [c1Det] (10000 + 100) (runCycle [c1Det] 10000 initSys)))
      = ⟨[c1Track2 (10000 + 2500)], 3,
          ⟨[c1Box], 10000, [mkDefect (c1Track1 10000) 10000]⟩⟩ := by
    rw [h3]
    exact c1_run4 (10000 + 2500) 10000 _
  refine ⟨?_, ?_, ?_⟩
  · rw [h4]
    rfl
  · rw [h1]
    rfl
  · rw [h4]
    rfl

/-- Witness for the greedy-matching claim at a concrete input: one live
track, one overlapping detection. -/
theorem greedy_match_spec_witness :
    ([c1Track1 0] : List Track).Pairwise (fun a b => a.id < b.id)
    ∧ (((bestMatch c1Det.box [c1Track1 0] []).1 = none →
        ∀ i ti, [c1Track1 0][i]? = some ti → i ∉ ([] : List ℕ) →
          jsGt (calculateIoU c1Det.box ti.box) (1 / 10) = false)
      ∧ (∀ j, (bestMatch c1Det.box [c1Track1 0] []).1 = some j →
          ∃ t, [c1Track1 0][j]? = some t ∧ j ∉ ([] : List ℕ)
            ∧ calculateIoU c1Det.box t.box
                = some (bestMatch c1Det.box [c1Track1 0] []).2
            ∧ 1 / 10 < (bestMatch c1Det.box [c1Track1 0] []).2
            ∧ (∀ i ti, [c1Track1 0][i]? = some ti → i ∉ ([] : List ℕ) →
                ∀ q, calculateIoU c1Det.box ti.box = some q →
                  q ≤ (bestMatch c1Det.box [c1Track1 0] []).2)
            ∧ (∀ i ti, [c1Track1 0][i]? = some ti → i ∉ ([] : List ℕ) →
                calculateIoU c1Det.box ti.box
                    = some (bestMatch c1Det.box [c1Track1 0] []).2 →
                  t.id ≤ ti.id)
            ∧ applyMatch [c1Track1 0] j c1Det 7
                = [c1Track1 0].set j ⟨t.id, c1Det.box, c1Det.score, c1Det.classId, 7⟩)
      ∧ (∀ k ds pr, processDets 7 ((k, c1Det) :: ds) ⟨[c1Track1 0], [], pr⟩ =
          match (bestMatch c1Det.box [c1Track1 0] []).1 with
          | some j => processDets 7 ds
              ⟨applyMatch [c1Track1 0] j c1Det 7, [] ++ [j], pr ++ [(k, j)]⟩
          | none => processDets 7 ds ⟨[c1Track1 0], [], pr⟩)) :=
  ⟨by simp, greedy_match_spec c1Det 7 [c1Track1 0] [] (by simp)⟩

/-- Witness for the anti-duplication claim: two identical detections in
one cycle never both create tracks. -/
theorem anti_duplication_witness :
    ((0 : ℕ) ≠ 1)
    ∧ ([c1Det, c1Det][0]? = some c1Det)
    ∧ ([c1Det, c1Det][1]? = some c1Det)
    ∧ jsGt (calculateIoU c1Det.box c1Det.box) (1 / 20) = true
    ∧ ¬((0 : ℕ) ∈ (updateTrackedDefects [c1Det, c1Det] 0 [] 1).created.map Prod.fst
        ∧ (1 : ℕ) ∈ (updateTrackedDefects [c1Det, c1Det] 0 [] 1).created.map Prod.fst) := by
  have hgt : jsGt (calculateIoU c1Det.box c1Det.box) (1 / 20) = true := by
    rw [show calculateIoU c1Det.box c1Det.box = some 1 from iou_c1Box_self]
    simp [jsGt]
    norm_num
  exact ⟨by decide, rfl, rfl, hgt,
    (anti_duplication [c1Det, c1Det] 0 [] 1).2 0 1 c1Det c1Det
      (by decide) rfl rfl hgt⟩
